import Mathlib

/-!
Shallow embedding of the pix-engine core (src/lib.rs and src/main.rs).

Modelling conventions:
* `u8` channel values become `ℕ` (always in `[0, 255]` where it matters);
* `u32` sizes become `ℕ`; `i32` coordinates become `ℤ`;
* `f32`/`f64` time and blend arithmetic becomes exact `ℚ` arithmetic with
  `Int.floor` standing for float `floor` and integer casts;
* the framebuffer (`image::ImageBuffer`) becomes a dense row-major
  `List Rgba` of length `w * h`, matching the crate's layout;
* the Rust `while`/`loop` constructs become structural recursion
  (well-founded on a measure, or fueled where termination is the very
  property under study).
-/

/-- One RGBA pixel: four `u8` channels, modelled as naturals. -/
structure Rgba where
  r : ℕ
  g : ℕ
  b : ℕ
  a : ℕ
deriving DecidableEq, Repr

/-- Model of `PixelBuffer { w, h, buf }` from lib.rs: a CPU-side framebuffer with a
dense row-major pixel buffer (`ImageBuffer<Rgba<u8>, Vec<u8>>`). -/
structure PixelBuffer where
  w : ℕ
  h : ℕ
  buf : List Rgba
deriving DecidableEq, Repr

/-- The buffer really has `w * h` pixels, as `ImageBuffer` guarantees. -/
def PixelBuffer.Wellformed (fb : PixelBuffer) : Prop :=
  fb.buf.length = fb.w * fb.h

instance (fb : PixelBuffer) : Decidable fb.Wellformed := by
  unfold PixelBuffer.Wellformed; infer_instance

/-- Model of `PixelBuffer::new(w, h)`: `ImageBuffer::from_pixel(w, h, Rgba([0,0,0,255]))`.
No validation of any kind is performed on `w` or `h`. -/
def PixelBuffer.new (w h : ℕ) : PixelBuffer :=
  { w := w, h := h, buf := List.replicate (w * h) ⟨0, 0, 0, 255⟩ }

/-- Model of `ImageBuffer::get_pixel(x, y)` on the row-major buffer (in-bounds reads
only are ever relied upon; out-of-range defaults are never reached). -/
def PixelBuffer.getPixel (fb : PixelBuffer) (x y : ℕ) : Rgba :=
  fb.buf.getD (y * fb.w + x) ⟨0, 0, 0, 0⟩

/-- Model of `PixelBuffer::clear(color)` from lib.rs: fast path for opaque black
(`fill(0)` then restore every alpha byte to 255), generic path writes
`color` to every pixel verbatim. -/
def PixelBuffer.clear (fb : PixelBuffer) (color : Rgba) : PixelBuffer :=
  if color = ⟨0, 0, 0, 255⟩ then
    { fb with buf := (fb.buf.map fun _ => (⟨0, 0, 0, 0⟩ : Rgba)).map fun p => { p with a := 255 } }
  else
    { fb with buf := fb.buf.map fun _ => color }

/-- Model of `PixelBuffer::put(x, y, c)` from lib.rs: bounds-checked plot, silent
no-op outside `[0, w) × [0, h)`. -/
def PixelBuffer.put (fb : PixelBuffer) (x y : ℤ) (c : Rgba) : PixelBuffer :=
  if 0 ≤ x ∧ 0 ≤ y ∧ x < (fb.w : ℤ) ∧ y < (fb.h : ℤ) then
    { fb with buf := fb.buf.set (y.toNat * fb.w + x.toNat) c }
  else fb

/-- Engine constants from lib.rs: `LOW_W = 320`, `LOW_H = 200`. -/
def LOW_W : ℕ := 320

/-- lib.rs sets `LOW_H` to 200 (its comment advertises a 16:9 canvas;
320 × 200 is 16:10, while main.rs uses 180). -/
def LOW_H : ℕ := 200

/-- main.rs engine constant `LOW_H = 180` (16:9, matching its comment). -/
def MAIN_LOW_H : ℕ := 180

/-- Model of `Camera` from lib.rs: world position, viewport size, zoom. Floats are
modelled as exact rationals. -/
structure Camera where
  x : ℚ
  y : ℚ
  viewport_w : ℕ
  viewport_h : ℕ
  zoom : ℚ

/-- Model of `Camera::new()`: takes no arguments, performs no validation, always
produces position `(0,0)`, viewport `LOW_W × LOW_H`, `zoom = 1.0`. -/
def Camera.new : Camera :=
  { x := 0, y := 0, viewport_w := LOW_W, viewport_h := LOW_H, zoom := 1 }

/-- Model of `Camera::world_to_screen(wx, wy)`: `floor((world - cam) * zoom)` per
axis, cast to `i32` (modelled as `ℤ`, the mathematical floor). -/
def Camera.world_to_screen (cam : Camera) (wx wy : ℚ) : ℤ × ℤ :=
  (⌊(wx - cam.x) * cam.zoom⌋, ⌊(wy - cam.y) * cam.zoom⌋)

/-- Model of `Camera::screen_to_world(sx, sy)`: `screen / zoom + cam` per axis. -/
def Camera.screen_to_world (cam : Camera) (sx sy : ℤ) : ℚ × ℚ :=
  ((sx : ℚ) / cam.zoom + cam.x, (sy : ℚ) / cam.zoom + cam.y)

/-- The per-tick presentation rectangle computed in `PixEngine::run`
(lib.rs) and in `main` (main.rs):
`sx = win_w / canvas_w` and `sy = win_h / canvas_h` in `u32` floor
division, `scale = min(sx, sy).max(1)`, `draw = canvas * scale`, and
offsets `floor((win - draw) * 0.5)` computed in `f64` (exact here, since
all inputs are integers). Returns `(scale, draw_w, draw_h, off_x, off_y)`. -/
def upscaleRect (winW winH canvasW canvasH : ℕ) : ℕ × ℕ × ℕ × ℤ × ℤ :=
  let sx := winW / canvasW
  let sy := winH / canvasH
  let scale := max (min sx sy) 1
  let drawW := canvasW * scale
  let drawH := canvasH * scale
  let offX := Int.fdiv ((winW : ℤ) - (drawW : ℤ)) 2
  let offY := Int.fdiv ((winH : ℤ) - (drawH : ℤ)) 2
  (scale, drawW, drawH, offX, offY)

/-- Raw window events relevant to the input latch in `PixEngine::run`:
keyboard press/release (keys as naturals) and focus change. -/
inductive RawEvent where
  | press (k : ℕ)
  | release (k : ℕ)
  | focusChanged (focused : Bool)
deriving DecidableEq, Repr

/-- One event through the input latch of `PixEngine::run`: the state is the
`pressed: HashSet<Key>`; the returned list holds the `(key, is_down)`
transitions forwarded to `Scene::key_event`.
* press: `if self.pressed.insert(k) { key_event(k, true) }` — insert
  returns false if the key was already down (key-repeat ignored);
* release: `if self.pressed.remove(&k) { key_event(k, false) }`;
* focus change: `if !focused { self.pressed.clear(); }` — no transitions. -/
def handleEvent (pressed : Finset ℕ) : RawEvent → Finset ℕ × List (ℕ × Bool)
  | .press k => if k ∈ pressed then (pressed, []) else (insert k pressed, [(k, true)])
  | .release k => if k ∈ pressed then (pressed.erase k, [(k, false)]) else (pressed, [])
  | .focusChanged focused => if focused then (pressed, []) else (∅, [])

/-- Feed a sequence of raw events through the latch, collecting all
forwarded transitions in order. -/
def runEvents (pressed : Finset ℕ) : List RawEvent → Finset ℕ × List (ℕ × Bool)
  | [] => (pressed, [])
  | e :: rest =>
    let p := handleEvent pressed e
    let q := runEvents p.1 rest
    (q.1, p.2 ++ q.2)

/-- Constant `FIXED_DT: f64 = 1.0 / 60.0`, modelled as the exact rational. -/
def FIXED_DT : ℚ := 1 / 60

/-- The accumulator drain of `PixEngine::run` / `main`:
`while acc >= FIXED_DT { scene.update(FIXED_DT, ..); acc -= FIXED_DT; }`.
Returns how many `Scene::update` calls were issued together with the final
accumulator value. -/
def drain (acc : ℚ) : ℕ × ℚ :=
  if FIXED_DT ≤ acc then
    let p := drain (acc - FIXED_DT)
    (p.1 + 1, p.2)
  else (0, acc)
termination_by (⌊acc * 60⌋).toNat
decreasing_by
  rename_i h
  have h60 : FIXED_DT = 1 / 60 := rfl
  have h2 : (acc - FIXED_DT) * 60 = acc * 60 - 1 := by rw [h60]; ring
  have h3 : (1 : ℤ) ≤ ⌊acc * 60⌋ := by
    rw [Int.le_floor]
    rw [h60] at h
    push_cast
    linarith
  rw [h2, Int.floor_sub_one]
  omega

/-- One update tick of the driver loop: `acc += u.dt;` then the drain.
Returns the update-call count of this tick and the new accumulator. -/
def tick (acc dt : ℚ) : ℕ × ℚ :=
  drain (acc + dt)

/-- Feed a list of wall-clock deltas through successive ticks, totalling
the number of `Scene::update` calls. -/
def runTicks (acc : ℚ) : List ℚ → ℕ × ℚ
  | [] => (0, acc)
  | dt :: rest =>
    let p := tick acc dt
    let q := runTicks p.2 rest
    (p.1 + q.1, q.2)

/-- Rust `as u8` narrowing of an `f32` blend result: every value arising in
`blit_rgba` lies in `[0, 255]`, where the cast truncates toward zero,
i.e. takes the floor. -/
def toU8 (x : ℚ) : ℕ := (⌊x⌋).toNat

/-- The body of the double loop of `PixelBuffer::blit_rgba` at sprite pixel
`(i, j)`: skip when the destination `(i + sx, j + sy)` is outside the
canvas; skip when the normalized source alpha `s[3] / 255.0` is `<= 0`;
otherwise write the "over" blend `src*a + dst*(1-a)` with output alpha 255. -/
def PixelBuffer.blitPixel (fb : PixelBuffer) (sx sy : ℤ) (sprite_w : ℕ)
    (pixels : List Rgba) (j i : ℕ) : PixelBuffer :=
  let px : ℤ := (i : ℤ) + sx
  let py : ℤ := (j : ℤ) + sy
  if px < 0 ∨ py < 0 ∨ (fb.w : ℤ) ≤ px ∨ (fb.h : ℤ) ≤ py then fb
  else
    let s := pixels.getD (j * sprite_w + i) ⟨0, 0, 0, 0⟩
    let a : ℚ := (s.a : ℚ) / 255
    if a ≤ 0 then fb
    else
      let dst := fb.getPixel px.toNat py.toNat
      let out : Rgba :=
        ⟨toU8 ((s.r : ℚ) * a + (dst.r : ℚ) * (1 - a)),
         toU8 ((s.g : ℚ) * a + (dst.g : ℚ) * (1 - a)),
         toU8 ((s.b : ℚ) * a + (dst.b : ℚ) * (1 - a)),
         255⟩
      { fb with buf := fb.buf.set (py.toNat * fb.w + px.toNat) out }

/-- Model of `PixelBuffer::blit_rgba(sx, sy, sprite_w, sprite_h, pixels)` from
lib.rs: the row-major double loop `for j in 0..sh { for i in 0..sw { .. } }`
over the sprite, compositing each pixel via `blitPixel`. -/
def PixelBuffer.blit_rgba (fb : PixelBuffer) (sx sy : ℤ)
    (sprite_w sprite_h : ℕ) (pixels : List Rgba) : PixelBuffer :=
  (List.range sprite_h).foldl (fun fb1 j =>
    (List.range sprite_w).foldl
      (fun fb2 i => fb2.blitPixel sx sy sprite_w pixels j i) fb1) fb

/-- The `loop { .. }` of `PixelBuffer::line`, given the loop-invariant
parameters `x1 y1 dx dy sx sy c` computed before the loop. Each iteration
plots `(x0, y0)`, breaks once `(x0, y0) = (x1, y1)`, and otherwise steps
`x0` and/or `y0` by the Bresenham error rule. The loop is fueled: `none`
means the fuel ran out before the break, and the termination claim is
precisely that enough fuel always exists. -/
def lineLoop (x1 y1 dx dy sx sy : ℤ) (c : Rgba) :
    ℕ → PixelBuffer → ℤ → ℤ → ℤ → Option PixelBuffer
  | 0, _, _, _, _ => none
  | fuel + 1, fb, x0, y0, err =>
    let fb1 := fb.put x0 y0 c
    if x0 = x1 ∧ y0 = y1 then some fb1
    else
      let e2 := 2 * err
      let err1 := if dy ≤ e2 then err + dy else err
      let x0n := if dy ≤ e2 then x0 + sx else x0
      let err2 := if e2 ≤ dx then err1 + dx else err1
      let y0n := if e2 ≤ dx then y0 + sy else y0
      lineLoop x1 y1 dx dy sx sy c fuel fb1 x0n y0n err2

/-- Model of `PixelBuffer::line(x0, y0, x1, y1, c)` from lib.rs: Bresenham with
`dx = |x1-x0|`, `sx = if x0 < x1 { 1 } else { -1 }`, `dy = -|y1-y0|`,
`sy = if y0 < y1 { 1 } else { -1 }`, `err = dx + dy`, then the loop,
supplied with fuel `|x1-x0| + |y1-y0| + 1` (shown sufficient below). -/
def PixelBuffer.line (fb : PixelBuffer) (x0 y0 x1 y1 : ℤ) (c : Rgba) :
    Option PixelBuffer :=
  let dx := |x1 - x0|
  let sx : ℤ := if x0 < x1 then 1 else -1
  let dy := -|y1 - y0|
  let sy : ℤ := if y0 < y1 then 1 else -1
  let err := dx + dy
  lineLoop x1 y1 dx dy sx sy c ((x1 - x0).natAbs + (y1 - y0).natAbs + 1) fb x0 y0 err

/-- Row-major index arithmetic: an in-bounds coordinate addresses a valid
buffer slot. -/
theorem rowMajorIndexLt {w h x y : ℕ} (hx : x < w) (hy : y < h) :
    y * w + x < w * h := by
  calc y * w + x < y * w + w := by omega
    _ = (y + 1) * w := by ring
    _ ≤ h * w := Nat.mul_le_mul_right w hy
    _ = w * h := Nat.mul_comm h w

/-- C1 counterexample: clearing with color `[1, 2, 3, 100]` stores the
alpha byte 100, not 255 — the generic branch of `clear` writes the clear
color verbatim, alpha included. -/
theorem clear_alpha_not_forced :
    (((PixelBuffer.new 1 1).clear ⟨1, 2, 3, 100⟩).getPixel 0 0).a = 100 ∧
    ¬ (((PixelBuffer.new 1 1).clear ⟨1, 2, 3, 100⟩).getPixel 0 0).a = 255 := by
  decide

/-- C1 (amended): `clear(c)` sets every in-bounds pixel to exactly `c`,
alpha byte included; the stored alpha is 255 only when `c`'s own alpha is
255 (as in the `[0,0,0,255]` fast path), never by force. -/
theorem clear_sets_every_pixel (fb : PixelBuffer) (c : Rgba) (x y : ℕ)
    (hwf : fb.Wellformed) (hx : x < fb.w) (hy : y < fb.h) :
    (fb.clear c).getPixel x y = c := by
  have hidx : y * fb.w + x < fb.buf.length := by
    rw [hwf]; exact rowMajorIndexLt hx hy
  unfold PixelBuffer.clear PixelBuffer.getPixel
  split
  next hc =>
    subst hc
    simp [List.getD_eq_getElem?_getD, List.getElem?_map,
      List.getElem?_eq_getElem, hidx]
  next hc =>
    simp [List.getD_eq_getElem?_getD, List.getElem?_map,
      List.getElem?_eq_getElem, hidx]

/-- C1 amended-claim witness at a concrete canvas, color and pixel. -/
theorem clear_sets_every_pixel_witness :
    ((PixelBuffer.new 2 2).clear ⟨1, 2, 3, 100⟩).getPixel 1 1 = ⟨1, 2, 3, 100⟩ :=
  clear_sets_every_pixel (PixelBuffer.new 2 2) ⟨1, 2, 3, 100⟩ 1 1
    (by decide) (by decide) (by decide)

/-- C3 counterexample: `PixelBuffer::new(0, 5)` succeeds, silently
producing a zero-width canvas with an empty buffer, and `Camera::new()`
takes no zoom argument at all (it always yields zoom 1), so neither
construction can fail with an error. -/
theorem construction_never_fails :
    (PixelBuffer.new 0 5).w = 0 ∧ (PixelBuffer.new 0 5).buf = [] ∧
    Camera.new.zoom = 1 :=
  ⟨rfl, rfl, rfl⟩

/-- C3 (amended): construction is total and unvalidated — `PixelBuffer::new`
returns a value with exactly the requested dimensions for every `w, h`,
zero included, and `Camera::new` has no zoom parameter and always produces
the (positive) zoom `1.0`. -/
theorem construction_unvalidated (w h : ℕ) :
    (PixelBuffer.new w h).w = w ∧ (PixelBuffer.new w h).h = h ∧
    (PixelBuffer.new w h).buf.length = w * h ∧ 0 < Camera.new.zoom := by
  refine ⟨rfl, rfl, ?_, by norm_num [Camera.new]⟩
  simp [PixelBuffer.new]

/-- C4: at a 1280×720 display the engine of lib.rs (canvas
`LOW_W × LOW_H = 320 × 200`) computes scale 3, a 960×600 rectangle and
offset (160, 60); the claim's values — scale 4, 1280×720, (0, 0) — are
produced by the main.rs constants (canvas 320×180). lib.rs's `LOW_H = 200`
contradicts its own `16:9 pixel canvas` comment. -/
theorem upscale_1280x720 :
    upscaleRect 1280 720 LOW_W LOW_H = (3, 960, 600, 160, 60) ∧
    upscaleRect 1280 720 LOW_W MAIN_LOW_H = (4, 1280, 720, 0, 0) := by
  constructor <;> decide

/-- C5: an in-bounds `put` followed by a read of the same coordinate
returns exactly the written color, and an out-of-bounds `put` returns the
canvas unchanged (a total function: no error, no panic). -/
theorem put_get_put_oob (fb : PixelBuffer) (x y : ℤ) (c : Rgba)
    (hwf : fb.Wellformed) :
    ((0 ≤ x ∧ 0 ≤ y ∧ x < (fb.w : ℤ) ∧ y < (fb.h : ℤ)) →
      (fb.put x y c).getPixel x.toNat y.toNat = c) ∧
    (¬ (0 ≤ x ∧ 0 ≤ y ∧ x < (fb.w : ℤ) ∧ y < (fb.h : ℤ)) →
      fb.put x y c = fb) := by
  constructor
  · intro hin
    obtain ⟨hx0, hy0, hxw, hyh⟩ := hin
    have hidx : y.toNat * fb.w + x.toNat < fb.buf.length := by
      rw [hwf]; exact rowMajorIndexLt (by omega) (by omega)
    unfold PixelBuffer.put PixelBuffer.getPixel
    rw [if_pos ⟨hx0, hy0, hxw, hyh⟩]
    simp only [List.getD_eq_getElem?_getD]
    rw [List.getElem?_set_eq_of_lt c hidx]
    rfl
  · intro hout
    unfold PixelBuffer.put
    rw [if_neg hout]

/-- C5 witness: concrete in-bounds and out-of-bounds plots on a 2×2
canvas. -/
theorem put_get_put_oob_witness :
    ((PixelBuffer.new 2 2).put 1 0 ⟨5, 6, 7, 8⟩).getPixel 1 0 = ⟨5, 6, 7, 8⟩ ∧
    (PixelBuffer.new 2 2).put 2 0 ⟨5, 6, 7, 8⟩ = PixelBuffer.new 2 2 :=
  ⟨(put_get_put_oob (PixelBuffer.new 2 2) 1 0 ⟨5, 6, 7, 8⟩ (by decide)).1 (by decide),
   (put_get_put_oob (PixelBuffer.new 2 2) 2 0 ⟨5, 6, 7, 8⟩ (by decide)).2 (by decide)⟩

/-- C6: from a latch state not holding `k`, two consecutive raw downs for
`k` forward exactly one down transition; a raw up for a key not held
forwards nothing; a focus-loss event clears the whole held set and
forwards no transitions. -/
theorem input_latch_dedup (s : Finset ℕ) (k : ℕ) (hk : k ∉ s) :
    (runEvents s [.press k, .press k]).2 = [(k, true)] ∧
    (runEvents s [.release k]).2 = [] ∧
    handleEvent s (.focusChanged false) = (∅, []) := by
  refine ⟨?_, ?_, rfl⟩
  · simp [runEvents, handleEvent, hk, Finset.mem_insert_self]
  · simp [runEvents, handleEvent, hk]

/-- C6 witness: key 0 against a latch holding key 5. -/
theorem input_latch_dedup_witness :
    (runEvents {5} [.press 0, .press 0]).2 = [(0, true)] ∧
    (runEvents {5} [.release 0]).2 = [] ∧
    handleEvent {5} (.focusChanged false) = (∅, []) :=
  input_latch_dedup {5} 0 (by decide)

/-- C8: at zoom 1, `screen_to_world` applied to `world_to_screen (wx, wy)`
differs from `(wx, wy)` by at most one unit per axis — the floor-rounding
error. -/
theorem camera_round_trip (cam : Camera) (wx wy : ℚ) (hz : cam.zoom = 1) :
    |(cam.screen_to_world (cam.world_to_screen wx wy).1
        (cam.world_to_screen wx wy).2).1 - wx| ≤ 1 ∧
    |(cam.screen_to_world (cam.world_to_screen wx wy).1
        (cam.world_to_screen wx wy).2).2 - wy| ≤ 1 := by
  unfold Camera.world_to_screen Camera.screen_to_world
  rw [hz]
  simp only [mul_one, div_one]
  constructor
  · rw [abs_le]
    constructor
    · have := Int.lt_floor_add_one (wx - cam.x); linarith
    · have := Int.floor_le (wx - cam.x); linarith
  · rw [abs_le]
    constructor
    · have := Int.lt_floor_add_one (wy - cam.y); linarith
    · have := Int.floor_le (wy - cam.y); linarith

/-- A fold whose step function fixes every state is the identity. -/
theorem foldl_id {α β : Type} (f : α → β → α) (l : List β) (a : α)
    (h : ∀ b ∈ l, ∀ x, f x b = x) : l.foldl f a = a := by
  induction l generalizing a with
  | nil => rfl
  | cons b bs ih =>
    rw [List.foldl_cons, h b (List.mem_cons_self b bs)]
    exact ih a fun b' hb' => h b' (List.mem_cons_of_mem b hb')

/-- One `blitPixel` step of a sprite whose pixels all have alpha 0 leaves
the canvas untouched: either the destination is out of bounds, or the
`a <= 0.0` skip fires. -/
theorem blitPixel_transparent (fb : PixelBuffer) (sx sy : ℤ) (sw : ℕ)
    (pixels : List Rgba) (hp : ∀ p ∈ pixels, p.a = 0) (j i : ℕ) :
    fb.blitPixel sx sy sw pixels j i = fb := by
  have hs : (pixels[j * sw + i]?.getD (⟨0, 0, 0, 0⟩ : Rgba)).a = 0 := by
    rcases hg : pixels[j * sw + i]? with _ | p
    · rfl
    · simpa using hp p (List.getElem?_mem hg)
  simp [PixelBuffer.blitPixel, hs]

/-- C9: `blit_rgba` with a sprite all of whose pixels have alpha exactly 0
leaves the destination canvas byte-for-byte unchanged. -/
theorem blit_transparent_unchanged (fb : PixelBuffer) (sx sy : ℤ)
    (sprite_w sprite_h : ℕ) (pixels : List Rgba)
    (hp : ∀ p ∈ pixels, p.a = 0) :
    fb.blit_rgba sx sy sprite_w sprite_h pixels = fb := by
  unfold PixelBuffer.blit_rgba
  refine foldl_id _ _ _ fun j _ x => ?_
  exact foldl_id _ _ _ fun i _ y => blitPixel_transparent y sx sy sprite_w pixels hp j i

/-- C9 witness: a concrete fully transparent 2×1 sprite over a 2×2 canvas,
partially out of bounds. -/
theorem blit_transparent_unchanged_witness :
    (PixelBuffer.new 2 2).blit_rgba 1 0 2 1 [⟨9, 9, 9, 0⟩, ⟨8, 8, 8, 0⟩] =
      PixelBuffer.new 2 2 :=
  blit_transparent_unchanged (PixelBuffer.new 2 2) 1 0 2 1
    [⟨9, 9, 9, 0⟩, ⟨8, 8, 8, 0⟩] (by decide)

/-- The drain accounts exactly for the accumulator: `updates * FIXED_DT`
plus the remainder is the input. -/
theorem drain_total (acc : ℚ) :
    ((drain acc).1 : ℚ) * FIXED_DT + (drain acc).2 = acc := by
  induction acc using drain.induct with
  | case1 acc h ih =>
    rw [drain, if_pos h]
    push_cast
    push_cast at ih
    nlinarith [ih]
  | case2 acc h =>
    rw [drain, if_neg h]
    push_cast
    ring

/-- The drain loop only exits below one fixed step. -/
theorem drain_lt (acc : ℚ) : (drain acc).2 < FIXED_DT := by
  induction acc using drain.induct with
  | case1 acc h ih => rw [drain, if_pos h]; simpa using ih
  | case2 acc h => rw [drain, if_neg h]; simpa using lt_of_not_le h

/-- The drain never goes negative from a nonnegative accumulator. -/
theorem drain_nonneg (acc : ℚ) (hacc : 0 ≤ acc) : 0 ≤ (drain acc).2 := by
  induction acc using drain.induct with
  | case1 acc h ih =>
    rw [drain, if_pos h]
    have hd : (0 : ℚ) < FIXED_DT := by norm_num [FIXED_DT]
    exact ih (by linarith)
  | case2 acc h => rw [drain, if_neg h]; simpa using hacc

/-- C7: after any tick — add the wall delta, drain whole fixed steps — the
accumulator is strictly below `FIXED_DT`. -/
theorem accumulator_below_step (acc dt : ℚ) (_hacc : 0 ≤ acc) :
    (tick acc dt).2 < FIXED_DT := by
  unfold tick
  exact drain_lt (acc + dt)

/-- C7 witness: an empty accumulator fed one second of wall time. -/
theorem accumulator_below_step_witness : (tick 0 1).2 < FIXED_DT :=
  accumulator_below_step 0 1 (by norm_num)

/-- Ticks account exactly for all wall time fed in. -/
theorem runTicks_total (acc : ℚ) (ds : List ℚ) :
    ((runTicks acc ds).1 : ℚ) * FIXED_DT + (runTicks acc ds).2 = acc + ds.sum := by
  induction ds generalizing acc with
  | nil => simp [runTicks]
  | cons d rest ih =>
    simp only [runTicks, List.sum_cons]
    have h1 := drain_total (acc + d)
    have h2 := ih (tick acc d).2
    unfold tick at h2 ⊢
    push_cast
    push_cast at h1 h2
    nlinarith [h1, h2]

/-- Once the accumulator is below one step it stays there after every
subsequent tick. -/
theorem runTicks_lt (acc : ℚ) (ds : List ℚ) (h : acc < FIXED_DT) :
    (runTicks acc ds).2 < FIXED_DT := by
  induction ds generalizing acc with
  | nil => simpa [runTicks]
  | cons d rest ih =>
    simp only [runTicks]
    exact ih (tick acc d).2 (drain_lt (acc + d))

/-- Nonnegative deltas keep the accumulator nonnegative. -/
theorem runTicks_nonneg (acc : ℚ) (ds : List ℚ) (hacc : 0 ≤ acc)
    (hds : ∀ d ∈ ds, 0 ≤ d) : 0 ≤ (runTicks acc ds).2 := by
  induction ds generalizing acc with
  | nil => simpa [runTicks]
  | cons d rest ih =>
    simp only [runTicks]
    refine ih (tick acc d).2 ?_ fun d' hd' => hds d' (List.mem_cons_of_mem d hd')
    exact drain_nonneg (acc + d) (add_nonneg hacc (hds d (List.mem_cons_self d rest)))

/-- C2: starting from the loop's initial accumulator 0, any sequence of
nonnegative wall-clock deltas summing to exactly `N * FIXED_DT` yields
exactly `N` `Scene::update` calls, independent of the chunking. -/
theorem accumulator_determinism (ds : List ℚ) (N : ℕ)
    (hds : ∀ d ∈ ds, 0 ≤ d) (hsum : ds.sum = N * FIXED_DT) :
    (runTicks 0 ds).1 = N := by
  have hd : (0 : ℚ) < FIXED_DT := by norm_num [FIXED_DT]
  have htot := runTicks_total 0 ds
  have hlt := runTicks_lt 0 ds hd
  have hnn := runTicks_nonneg 0 ds le_rfl hds
  rw [hsum] at htot
  have hexp : (((runTicks 0 ds).1 : ℚ) + 1) * FIXED_DT =
      ((runTicks 0 ds).1 : ℚ) * FIXED_DT + FIXED_DT := by ring
  have h1 : ((runTicks 0 ds).1 : ℚ) * FIXED_DT ≤ (N : ℚ) * FIXED_DT := by
    linarith
  have h2 : (N : ℚ) * FIXED_DT < (((runTicks 0 ds).1 : ℚ) + 1) * FIXED_DT := by
    rw [hexp]; linarith
  have h1' : (runTicks 0 ds).1 ≤ N := by
    exact_mod_cast le_of_mul_le_mul_right h1 hd
  have h2' : (N : ℚ) < ((runTicks 0 ds).1 : ℚ) + 1 := lt_of_mul_lt_mul_right h2 hd.le
  have h2n : N < (runTicks 0 ds).1 + 1 := by exact_mod_cast h2'
  omega

/-- C2 witness: one delta worth five whole steps produces five updates
(the claim's own example chunking). -/
theorem accumulator_determinism_witness : (runTicks 0 [5 * FIXED_DT]).1 = 5 :=
  accumulator_determinism [5 * FIXED_DT] 5 (by simp [FIXED_DT]) (by simp [FIXED_DT])

/-- When the x-distance is exhausted (`u = 0`) but `v ≥ 1` rows remain,
the Bresenham error test refuses a further x step. -/
theorem bres_no_xstep (dx dy v err : ℤ) (hdx : 0 ≤ dx) (hv1 : 1 ≤ v) (hvd : v ≤ -dy)
    (herr : err = dx + dy - v * dx) : 2 * err < dy := by
  nlinarith [mul_nonneg hdx (by linarith : (0:ℤ) ≤ v - 1)]

/-- When the y-distance is exhausted (`v = 0`) but `u ≥ 1` columns remain,
the Bresenham error test refuses a further y step. -/
theorem bres_no_ystep (dx dy u err : ℤ) (hdy : dy ≤ 0) (hu1 : 1 ≤ u) (hud : u ≤ dx)
    (herr : err = dx + dy - u * dy) : dx < 2 * err := by
  nlinarith [mul_nonneg (by linarith : (0:ℤ) ≤ -dy) (by linarith : (0:ℤ) ≤ u - 1)]

/-- Bresenham loop invariant: writing `u = (x1 - x0) * sx` and
`v = (y1 - y0) * sy` for the remaining axis distances, `u ∈ [0, dx]`,
`v ∈ [0, -dy]` and `err = dx + dy - u*dy - v*dx` are preserved by every
iteration, each iteration decreases `u + v` by at least one, and the loop
breaks exactly at `u = v = 0`; hence fuel `u + v + 1` suffices. -/
theorem lineLoop_isSome (x1 y1 dx dy sx sy : ℤ) (c : Rgba)
    (hsx : sx = 1 ∨ sx = -1) (hsy : sy = 1 ∨ sy = -1)
    (hdx : 0 ≤ dx) (hdy : dy ≤ 0) :
    ∀ (fuel : ℕ) (fb : PixelBuffer) (x0 y0 err : ℤ),
      0 ≤ (x1 - x0) * sx → (x1 - x0) * sx ≤ dx →
      0 ≤ (y1 - y0) * sy → (y1 - y0) * sy ≤ -dy →
      err = dx + dy - (x1 - x0) * sx * dy - (y1 - y0) * sy * dx →
      (x1 - x0) * sx + (y1 - y0) * sy < (fuel : ℤ) →
      (lineLoop x1 y1 dx dy sx sy c fuel fb x0 y0 err).isSome := by
  intro fuel
  induction fuel with
  | zero =>
    intro fb x0 y0 err hu0 hud hv0 hvd herr hfuel
    exfalso
    have h0 : ((0 : ℕ) : ℤ) = 0 := rfl
    linarith
  | succ n ih =>
    intro fb x0 y0 err hu0 hud hv0 hvd herr hfuel
    by_cases hend : x0 = x1 ∧ y0 = y1
    · simp [lineLoop, hend]
    · have hxz : (x1 - x0) * sx = 0 → x0 = x1 := by
        intro h
        rcases mul_eq_zero.mp h with h1 | h1
        · omega
        · rcases hsx with h2 | h2 <;> omega
      have hyz : (y1 - y0) * sy = 0 → y0 = y1 := by
        intro h
        rcases mul_eq_zero.mp h with h1 | h1
        · omega
        · rcases hsy with h2 | h2 <;> omega
      have hu_zero_no_x : (x1 - x0) * sx = 0 → ¬ (dy ≤ 2 * err) := by
        intro hu hcx
        have hv1 : 1 ≤ (y1 - y0) * sy := by
          rcases eq_or_lt_of_le hv0 with h0 | h0
          · exact absurd ⟨hxz hu, hyz h0.symm⟩ hend
          · exact Int.add_one_le_iff.mpr h0
        have herr' : err = dx + dy - ((y1 - y0) * sy) * dx := by
          rw [herr, hu]; ring
        have := bres_no_xstep dx dy ((y1 - y0) * sy) err hdx hv1 hvd herr'
        linarith
      have hv_zero_no_y : (y1 - y0) * sy = 0 → ¬ (2 * err ≤ dx) := by
        intro hv hcy
        have hu1 : 1 ≤ (x1 - x0) * sx := by
          rcases eq_or_lt_of_le hu0 with h0 | h0
          · exact absurd ⟨hxz h0.symm, hyz hv⟩ hend
          · exact Int.add_one_le_iff.mpr h0
        have herr' : err = dx + dy - ((x1 - x0) * sx) * dy := by
          rw [herr, hv]; ring
        have := bres_no_ystep dx dy ((x1 - x0) * sx) err hdy hu1 hud herr'
        linarith
      by_cases hcx : dy ≤ 2 * err <;> by_cases hcy : 2 * err ≤ dx
      · -- diagonal step: both axes advance
        have hu1 : 1 ≤ (x1 - x0) * sx := by
          rcases eq_or_lt_of_le hu0 with h0 | h0
          · exact absurd hcx (hu_zero_no_x h0.symm)
          · exact Int.add_one_le_iff.mpr h0
        have hv1 : 1 ≤ (y1 - y0) * sy := by
          rcases eq_or_lt_of_le hv0 with h0 | h0
          · exact absurd hcy (hv_zero_no_y h0.symm)
          · exact Int.add_one_le_iff.mpr h0
        have hu' : (x1 - (x0 + sx)) * sx = (x1 - x0) * sx - 1 := by
          rcases hsx with h | h <;> rw [h] <;> ring
        have hv' : (y1 - (y0 + sy)) * sy = (y1 - y0) * sy - 1 := by
          rcases hsy with h | h <;> rw [h] <;> ring
        simp only [lineLoop, if_neg hend, hcx, hcy, if_true]
        apply ih
        · rw [hu']; linarith
        · rw [hu']; linarith
        · rw [hv']; linarith
        · rw [hv']; linarith
        · rw [hu', hv', herr]; ring
        · rw [hu', hv']; push_cast at hfuel ⊢; linarith
      · -- x step only
        have hu1 : 1 ≤ (x1 - x0) * sx := by
          rcases eq_or_lt_of_le hu0 with h0 | h0
          · exact absurd hcx (hu_zero_no_x h0.symm)
          · exact Int.add_one_le_iff.mpr h0
        have hu' : (x1 - (x0 + sx)) * sx = (x1 - x0) * sx - 1 := by
          rcases hsx with h | h <;> rw [h] <;> ring
        simp only [lineLoop, if_neg hend, hcx, hcy, if_true, if_false]
        apply ih
        · rw [hu']; linarith
        · rw [hu']; linarith
        · exact hv0
        · exact hvd
        · rw [hu', herr]; ring
        · rw [hu']; push_cast at hfuel ⊢; linarith
      · -- y step only
        have hv1 : 1 ≤ (y1 - y0) * sy := by
          rcases eq_or_lt_of_le hv0 with h0 | h0
          · exact absurd hcy (hv_zero_no_y h0.symm)
          · exact Int.add_one_le_iff.mpr h0
        have hv' : (y1 - (y0 + sy)) * sy = (y1 - y0) * sy - 1 := by
          rcases hsy with h | h <;> rw [h] <;> ring
        simp only [lineLoop, if_neg hend, hcx, hcy, if_true, if_false]
        apply ih
        · exact hu0
        · exact hud
        · rw [hv']; linarith
        · rw [hv']; linarith
        · rw [hv', herr]; ring
        · rw [hv']; push_cast at hfuel ⊢; linarith
      · -- neither test can fail together: dy ≤ 0 ≤ dx
        exact absurd (by linarith : 2 * err ≤ dx) hcy

/-- C10: for every pair of endpoints and every color the Bresenham loop of
`PixelBuffer::line` terminates — it reaches `x0 = x1 ∧ y0 = y1` and breaks
within the supplied `|x1-x0| + |y1-y0| + 1` iterations, so the fueled loop
returns a result. -/
theorem line_terminates (fb : PixelBuffer) (x0 y0 x1 y1 : ℤ) (c : Rgba) :
    (fb.line x0 y0 x1 y1 c).isSome := by
  have habsx : (x1 - x0) * (if x0 < x1 then (1:ℤ) else -1) = |x1 - x0| := by
    rcases lt_or_ge x0 x1 with h | h
    · rw [if_pos h, mul_one, abs_of_nonneg (by omega)]
    · rw [if_neg (not_lt.mpr h), abs_of_nonpos (by omega)]; ring
  have habsy : (y1 - y0) * (if y0 < y1 then (1:ℤ) else -1) = |y1 - y0| := by
    rcases lt_or_ge y0 y1 with h | h
    · rw [if_pos h, mul_one, abs_of_nonneg (by omega)]
    · rw [if_neg (not_lt.mpr h), abs_of_nonpos (by omega)]; ring
  simp only [PixelBuffer.line]
  apply lineLoop_isSome
  · split <;> simp
  · split <;> simp
  · exact abs_nonneg _
  · exact neg_nonpos.mpr (abs_nonneg _)
  · rw [habsx]; exact abs_nonneg _
  · rw [habsx]
  · rw [habsy]; exact abs_nonneg _
  · rw [habsy]; simp
  · rw [habsx, habsy]; ring
  · rw [habsx, habsy, Int.abs_eq_natAbs, Int.abs_eq_natAbs]
    push_cast
    omega

/-- C8 witness: the default camera at a fractional world point. -/
theorem camera_round_trip_witness :
    |(Camera.new.screen_to_world (Camera.new.world_to_screen (1/3) (5/7)).1
        (Camera.new.world_to_screen (1/3) (5/7)).2).1 - 1/3| ≤ 1 ∧
    |(Camera.new.screen_to_world (Camera.new.world_to_screen (1/3) (5/7)).1
        (Camera.new.world_to_screen (1/3) (5/7)).2).2 - 5/7| ≤ 1 :=
  camera_round_trip Camera.new (1/3) (5/7) rfl
